import Mathlib

/-!
Verification of the DIIS-accelerated SCF iteration loop of the psi4numpy
DIIS tutorial notebook.  The notebook builds, each SCF iteration, the
augmented Pulay matrix from the list DIIS_RESID of residual matrices,
solves it against the right-hand side (0, ..., 0, -1) with np.linalg.solve,
and combines the Fock matrices in F_list with the first N solution entries.

The embedding models the dense numpy arrays as rational matrices
(exact arithmetic) and np.linalg.solve as an adjugate-based solver that
fails (returns none, modelling the raised LinAlgError) exactly when the
matrix is singular.
-/

open Matrix

namespace DIIS

/-- Square nbf x nbf array of rationals, the shape of every Fock and
residual matrix in the notebook. -/
abbrev Mat (m : ℕ) : Type := Matrix (Fin m) (Fin m) ℚ

/-- Frobenius inner product of two same-shape matrices, the flattened dot
product computed by np.einsum with subscripts ij,ij-> in the B-matrix fill
loop of the notebook. -/
def frobInner {m : ℕ} (X Y : Mat m) : ℚ := ∑ i, ∑ j, X i j * Y i j

/-- The augmented Pulay matrix built by the notebook from the residual
list: B_dim = len(F_list) + 1; the last row and last column are filled
with -1, the corner entry with 0, and the nested loops then fill every
interior entry (i, j) with the Frobenius inner product of residuals i
and j.  This definition is the net effect of those four imperative fills
(the nested loops overwrite only the interior, so the border assignments
survive). -/
def buildB {m : ℕ} (Rl : List (Mat m)) :
    Matrix (Fin (Rl.length + 1)) (Fin (Rl.length + 1)) ℚ :=
  fun i j =>
    if hi : (i : ℕ) < Rl.length then
      if hj : (j : ℕ) < Rl.length then
        frobInner (Rl.get ⟨i, hi⟩) (Rl.get ⟨j, hj⟩)
      else -1
    else if (j : ℕ) < Rl.length then -1 else 0

/-- Right-hand side of the Pulay equation: rhs = np.zeros(B_dim) followed
by rhs[-1] = -1. -/
def pulayRhs (N : ℕ) : Fin (N + 1) → ℚ := fun i => if (i : ℕ) = N then -1 else 0

/-- Model of np.linalg.solve on a square rational system: returns the
unique solution when the matrix is invertible (via the adjugate formula)
and none when the matrix is singular, modelling the LinAlgError numpy
raises in that case. -/
def linSolve {n : ℕ} (A : Matrix (Fin n) (Fin n) ℚ) (b : Fin n → ℚ) :
    Option (Fin n → ℚ) :=
  if A.det = 0 then none else some (A.det⁻¹ • A.adjugate.mulVec b)

/-- The coeff = np.linalg.solve(B, rhs) line of the notebook: solve the
augmented Pulay system built from the residual list. -/
def pulaySolve {m : ℕ} (Rl : List (Mat m)) :
    Option (Fin (Rl.length + 1) → ℚ) :=
  linSolve (buildB Rl) (pulayRhs Rl.length)

/-- The DIIS Fock build loop of the notebook: F = np.zeros_like(F), then
for x in range(coeff.shape[0] - 1): F += coeff[x] * F_list[x].  The loop
runs over the first len(coeff) - 1 indices only, discarding the last
solution entry (the Lagrange multiplier). -/
def diisCombo {m : ℕ} (coeff : List ℚ) (Fl : List (Mat m)) : Mat m :=
  (List.range (coeff.length - 1)).foldl
    (fun acc x => acc + coeff.getD x 0 • Fl.getD x 0) 0

/-- The full extrapolation block of the notebook for a given trial list
and residual list: build the augmented matrix, solve, and combine the
trial matrices with the solution coefficients.  none models the
np.linalg.solve failure (LinAlgError) propagating out of the block, since
the notebook wraps the solve in no exception handler. -/
def diisApply {m : ℕ} (Fl Rl : List (Mat m)) : Option (Mat m) :=
  (pulaySolve Rl).map (fun c => diisCombo (List.ofFn c) Fl)

/-- One iteration of the DIIS part of the SCF loop: append the freshly
built Fock matrix F and residual r to the two history lists, then, only
when scf_iter is at least 2 (at which point the histories hold scf_iter
entries), run the extrapolation block; otherwise keep F unchanged.
Returns the updated histories together with the Fock matrix used for the
subsequent orbital update (none when the solve raised). -/
def diisIteration {m : ℕ} (scfIter : ℕ) (Fl Rl : List (Mat m)) (F r : Mat m) :
    (List (Mat m) × List (Mat m)) × Option (Mat m) :=
  let Fl1 := Fl ++ [F]
  let Rl1 := Rl ++ [r]
  if 2 ≤ scfIter then ((Fl1, Rl1), diisApply Fl1 Rl1) else ((Fl1, Rl1), some F)

/-- The paired appends F_list.append(F); DIIS_RESID.append(diis_r)
performed once per SCF iteration, acting on the pair of history lists. -/
def appendPair {α : Type} (h : List α × List α) (F r : α) : List α × List α :=
  (h.1 ++ [F], h.2 ++ [r])

/-- The evolution of the two history lists across a whole run: starting
from the empty lists created in the pre-iteration setup cell, perform the
paired appends once per iteration, one (Fock, residual) pair per
iteration. -/
def historyRun {α : Type} (pairs : List (α × α)) : List α × List α :=
  pairs.foldl (fun h p => appendPair h p.1 p.2) ([], [])

/-- A numpy array of arbitrary rank, carrying its shape at run time, used
to model the appends of the notebook when shapes are allowed to vary
(the notebook itself always appends nbf x nbf matrices). -/
structure NDArr where
  shape : List ℕ
  data : List ℚ
deriving DecidableEq

/-- Energy convergence criterion of the notebook: E_conv = 1.0e-6. -/
def Econv : ℚ := 1 / 1000000

/-- Density (residual RMS) convergence criterion: D_conv = 1.0e-3. -/
def Dconv : ℚ := 1 / 1000

/-- Maximum SCF iterations of the notebook: MAXITER = 40. -/
def MAXITER : ℕ := 40

/-- The quantities the convergence test of the notebook reads each
iteration, together with an abstract payload standing for the rest of the
loop state (density matrix, history lists, integral tensors). -/
structure SCFState (α : Type) where
  payload : α
  scfE : ℚ
  eOld : ℚ
  dRMS : ℚ

/-- The convergence test of the notebook, evaluated each iteration right
after the energy print and before any extrapolation:
abs(SCF_E - E_old) < E_conv and dRMS < D_conv. -/
def scfConverged {α : Type} (s : SCFState α) : Bool :=
  (|s.scfE - s.eOld| < Econv) && (s.dRMS < Dconv)

/-- The SCF for-loop of the notebook, parametrised by the two
domain-physics phases of an iteration: stepA is everything before the
convergence test (Fock build, residual build, appends, energy and dRMS
update) and stepB everything after it (E_old update, DIIS extrapolation,
orbital update).  The fuel argument counts the remaining loop indices;
the loop body checks convergence after stepA, and when the current
iteration is the last one (scf_iter == MAXITER) the notebook raises an
exception, modelled as Except.error. -/
def scfGo {α : Type} (stepA stepB : SCFState α → SCFState α) :
    SCFState α → ℕ → Except Unit (SCFState α)
  | s, 0 => .ok s
  | s, r + 1 =>
    let s1 := stepA s
    if scfConverged s1 then .ok s1
    else
      let s2 := stepB s1
      if r = 0 then .error () else scfGo stepA stepB s2 r

/-- A whole SCF run: the for-loop over scf_iter in xrange(1, MAXITER + 1). -/
def scfRun {α : Type} (stepA stepB : SCFState α → SCFState α) (s0 : SCFState α) :
    Except Unit (SCFState α) :=
  scfGo stepA stepB s0 MAXITER

/-- Modelled from the spec: the short-circuit of section 4.2 and 4.3 for a
single-entry history, whose coefficient vector is trivially [1.0] and
whose extrapolated vector is therefore 1.0 times the sole trial. -/
def shortCircuitN1 {m : ℕ} (F : Mat m) : Mat m := (1 : ℚ) • F

theorem buildB_interior {m : ℕ} (Rl : List (Mat m)) (i j : Fin Rl.length) :
    buildB Rl i.castSucc j.castSucc = frobInner (Rl.get i) (Rl.get j) := by
  have hi : ((i.castSucc : Fin (Rl.length + 1)) : ℕ) < Rl.length := by
    simp
  have hj : ((j.castSucc : Fin (Rl.length + 1)) : ℕ) < Rl.length := by
    simp
  simp [buildB, hi, hj]

theorem buildB_lastRow {m : ℕ} (Rl : List (Mat m)) (j : Fin Rl.length) :
    buildB Rl (Fin.last Rl.length) j.castSucc = -1 := by
  have hi : ¬ (((Fin.last Rl.length) : ℕ) < Rl.length) := by simp
  have hj : ((j.castSucc : Fin (Rl.length + 1)) : ℕ) < Rl.length := by
    simp
  simp [buildB, hi, hj]

theorem buildB_lastCol {m : ℕ} (Rl : List (Mat m)) (i : Fin Rl.length) :
    buildB Rl i.castSucc (Fin.last Rl.length) = -1 := by
  have hi : ((i.castSucc : Fin (Rl.length + 1)) : ℕ) < Rl.length := by
    simp
  simp [buildB, hi]

theorem buildB_corner {m : ℕ} (Rl : List (Mat m)) :
    buildB Rl (Fin.last Rl.length) (Fin.last Rl.length) = 0 := by
  simp [buildB]

theorem pulayRhs_castSucc (N : ℕ) (j : Fin N) : pulayRhs N j.castSucc = 0 := by
  have h : ((j : ℕ)) ≠ N := by
    have := j.isLt
    omega
  simp [pulayRhs, h]

theorem pulayRhs_last (N : ℕ) : pulayRhs N (Fin.last N) = -1 := by
  simp [pulayRhs]

theorem foldl_range_add_eq_sum {M : Type} [AddCommMonoid M] (f : ℕ → M)
    (n : ℕ) (init : M) :
    (List.range n).foldl (fun acc x => acc + f x) init =
      init + ∑ x ∈ Finset.range n, f x := by
  induction n generalizing init with
  | zero => simp
  | succ k ih =>
    rw [List.range_succ, List.foldl_append, ih, Finset.sum_range_succ]
    simp [add_assoc]

theorem diisCombo_eq_sum {m : ℕ} (coeff : List ℚ) (Fl : List (Mat m)) :
    diisCombo coeff Fl =
      ∑ x ∈ Finset.range (coeff.length - 1), coeff.getD x 0 • Fl.getD x 0 := by
  unfold diisCombo
  rw [foldl_range_add_eq_sum, zero_add]

theorem linSolve_mulVec {n : ℕ} {A : Matrix (Fin n) (Fin n) ℚ} {b c : Fin n → ℚ}
    (h : linSolve A b = some c) : A.mulVec c = b := by
  unfold linSolve at h
  by_cases hd : A.det = 0
  · simp [hd] at h
  · rw [if_neg hd, Option.some.injEq] at h
    subst h
    rw [mulVec_smul, mulVec_mulVec, mul_adjugate, smul_mulVec_assoc, one_mulVec,
      smul_smul, inv_mul_cancel₀ hd, one_smul]

theorem linSolve_isSome {n : ℕ} {A : Matrix (Fin n) (Fin n) ℚ} {b : Fin n → ℚ}
    (hd : A.det ≠ 0) : linSolve A b = some (A.det⁻¹ • A.adjugate.mulVec b) := by
  unfold linSolve
  rw [if_neg hd]

theorem frobInner_comm {m : ℕ} (X Y : Mat m) : frobInner X Y = frobInner Y X := by
  unfold frobInner
  apply Finset.sum_congr rfl
  intro i _
  apply Finset.sum_congr rfl
  intro j _
  exact mul_comm _ _

/-- Claim C7: the overlap matrix built from any residual history is
exactly symmetric, entry (i, j) equalling entry (j, i); the notebook
builds the bordered matrix directly and the whole bordered matrix is
symmetric, the interior because the Frobenius inner product is
commutative and the border because row and column are both -1 with a 0
corner. -/
theorem overlap_matrix_symmetric {m : ℕ} (Rl : List (Mat m))
    (i j : Fin (Rl.length + 1)) : buildB Rl i j = buildB Rl j i := by
  by_cases hi : (i : ℕ) < Rl.length <;> by_cases hj : (j : ℕ) < Rl.length <;>
    simp [buildB, hi, hj, frobInner_comm]

theorem historyRun_foldl {α : Type} (pairs : List (α × α))
    (init : List α × List α) :
    pairs.foldl (fun h p => appendPair h p.1 p.2) init =
      (init.1 ++ pairs.map Prod.fst, init.2 ++ pairs.map Prod.snd) := by
  induction pairs generalizing init with
  | nil => simp
  | cons p rest ih =>
    rw [List.foldl_cons, ih]
    simp [appendPair]

/-- Claim C8: the history lists stay paired, len(F_list) = len(DIIS_RESID)
after every iteration, and absent eviction they grow monotonically: after
k iterations each holds exactly k entries, in insertion order with
nothing removed (each list is exactly the sequence of appended values). -/
theorem history_growth {α : Type} (pairs : List (α × α)) :
    historyRun pairs = (pairs.map Prod.fst, pairs.map Prod.snd) ∧
    (historyRun pairs).1.length = pairs.length ∧
    (historyRun pairs).2.length = pairs.length ∧
    ∀ k : ℕ, (historyRun (pairs.take k)).1.length =
      (historyRun (pairs.take k)).2.length := by
  have hall : ∀ ps : List (α × α), historyRun ps = (ps.map Prod.fst, ps.map Prod.snd) := by
    intro ps
    unfold historyRun
    rw [historyRun_foldl]
    simp
  refine ⟨hall pairs, ?_, ?_, ?_⟩
  · rw [hall pairs]; simp
  · rw [hall pairs]; simp
  · intro k
    rw [hall (pairs.take k)]
    simp

/-- Claim C4: on the first SCF iteration the history was empty before the
appends (one entry after them), the scf_iter at least 2 guard is false,
so no B matrix is built and no solve is performed: the freshly built Fock
matrix is passed through unchanged to the orbital update. -/
theorem single_entry_passthrough {m : ℕ} (F r : Mat m) :
    diisIteration 1 [] [] F r = (([F], [r]), some F) := by
  simp [diisIteration]

theorem scfGo_terminates {α : Type} (stepA stepB : SCFState α → SCFState α)
    (r : ℕ) (hr : 1 ≤ r) (s : SCFState α) :
    (∃ s1, scfGo stepA stepB s r = .ok s1 ∧ scfConverged s1 = true) ∨
      scfGo stepA stepB s r = .error () := by
  induction r generalizing s with
  | zero => omega
  | succ k ih =>
    rw [scfGo]
    by_cases hc : scfConverged (stepA s) = true
    · left
      exact ⟨stepA s, by simp [hc], hc⟩
    · rw [if_neg hc]
      by_cases hk : k = 0
      · right
        simp [hk]
      · rw [if_neg hk]
        exact ih (by omega) _

/-- Claim C10: the SCF driver loop terminates after at most MAXITER = 40
iterations: whatever the domain-physics phases do, every run either ends
with the convergence test (checked each iteration after the energy
computation and before any extrapolation) returning a converged state, or
raises the maximum-iterations exception; no unconverged state is ever
returned as a success. -/
theorem scf_driver_terminates {α : Type} (stepA stepB : SCFState α → SCFState α)
    (s0 : SCFState α) :
    (∃ s, scfRun stepA stepB s0 = .ok s ∧ scfConverged s = true) ∨
      scfRun stepA stepB s0 = .error () := by
  unfold scfRun
  exact scfGo_terminates stepA stepB MAXITER (by norm_num [MAXITER]) s0

theorem diisApply_eq_sum {m : ℕ} (Fl Rl : List (Mat m))
    (ctil : Fin (Rl.length + 1) → ℚ) (hs : pulaySolve Rl = some ctil) :
    diisApply Fl Rl =
      some (∑ i : Fin Rl.length, ctil i.castSucc • Fl.getD (i : ℕ) 0) := by
  unfold diisApply
  rw [hs]
  simp only [Option.map_some']
  congr 1
  rw [diisCombo_eq_sum]
  have hlen1 : (List.ofFn ctil).length - 1 = Rl.length := by
    simp
  rw [hlen1, ← Fin.sum_univ_eq_sum_range
    (fun x => (List.ofFn ctil).getD x 0 • Fl.getD x 0) Rl.length]
  apply Finset.sum_congr rfl
  intro i _
  congr 1
  have hilt : (i : ℕ) < (List.ofFn ctil).length := by
    simp
    omega
  rw [List.getD_eq_getElem _ _ hilt, List.getElem_ofFn]
  rfl

/-- Claim C5: whenever the extrapolation block runs on histories of N
trials and N residuals and the solve succeeds with solution ctil, the
DIIS Fock matrix it produces is the elementwise linear combination of all
N trial matrices in the history, weighted by the first N solution
entries. -/
theorem extrapolation_is_linear_combination {m : ℕ} (Fl Rl : List (Mat m))
    (_hlen : Fl.length = Rl.length)
    (ctil : Fin (Rl.length + 1) → ℚ) (hs : pulaySolve Rl = some ctil) :
    diisApply Fl Rl =
      some (∑ i : Fin Rl.length, ctil i.castSucc • Fl.getD (i : ℕ) 0) :=
  diisApply_eq_sum Fl Rl ctil hs

/-- Claim C3: for any history of size N at least 2 whose augmented Pulay
matrix is non-singular (so the solve returns a solution), the N
extrapolation coefficients, the first N entries of the solution, sum
exactly to 1. -/
theorem coefficients_sum_to_one {m : ℕ} (Rl : List (Mat m))
    (_hN : 2 ≤ Rl.length)
    (ctil : Fin (Rl.length + 1) → ℚ) (hs : pulaySolve Rl = some ctil) :
    ∑ i : Fin Rl.length, ctil i.castSucc = 1 := by
  unfold pulaySolve at hs
  have hmv := linSolve_mulVec hs
  have hlast := congrFun hmv (Fin.last Rl.length)
  simp only [Matrix.mulVec, Matrix.dotProduct] at hlast
  rw [Fin.sum_univ_castSucc] at hlast
  rw [buildB_corner, pulayRhs_last] at hlast
  have hrow : ∀ j : Fin Rl.length,
      buildB Rl (Fin.last Rl.length) j.castSucc * ctil j.castSucc =
        -(ctil j.castSucc) := by
    intro j
    rw [buildB_lastRow]
    ring
  rw [Finset.sum_congr rfl (fun j _ => hrow j)] at hlast
  rw [Finset.sum_neg_distrib] at hlast
  linarith [hlast]

/-- Claim C1: for every history of N at least 2 paired trial and residual
matrices, the notebook builds the bordered matrix whose interior entry
(i, j) is the Frobenius inner product of residuals i and j, whose last
row and column are -1 with corner 0, solves it against the right-hand
side that is zero except for a final -1, and the extrapolation
coefficients it then uses are exactly the first N entries of the
solution, the last entry (the Lagrange multiplier) being discarded by the
combination loop. -/
theorem pulay_solver_construction {m : ℕ} (Fl Rl : List (Mat m))
    (_hN : 2 ≤ Rl.length) (_hlen : Fl.length = Rl.length) :
    (∀ i j : Fin Rl.length,
        buildB Rl i.castSucc j.castSucc = frobInner (Rl.get i) (Rl.get j)) ∧
    (∀ j : Fin Rl.length, buildB Rl (Fin.last Rl.length) j.castSucc = -1) ∧
    (∀ i : Fin Rl.length, buildB Rl i.castSucc (Fin.last Rl.length) = -1) ∧
    buildB Rl (Fin.last Rl.length) (Fin.last Rl.length) = 0 ∧
    (∀ j : Fin Rl.length, pulayRhs Rl.length j.castSucc = 0) ∧
    pulayRhs Rl.length (Fin.last Rl.length) = -1 ∧
    ∀ ctil, pulaySolve Rl = some ctil →
      (buildB Rl).mulVec ctil = pulayRhs Rl.length ∧
      diisApply Fl Rl =
        some (∑ i : Fin Rl.length, ctil i.castSucc • Fl.getD (i : ℕ) 0) := by
  refine ⟨buildB_interior Rl, buildB_lastRow Rl, buildB_lastCol Rl,
    buildB_corner Rl, pulayRhs_castSucc Rl.length, pulayRhs_last Rl.length,
    fun ctil hs => ⟨?_, diisApply_eq_sum Fl Rl ctil hs⟩⟩
  unfold pulaySolve at hs
  exact linSolve_mulVec hs

/-- Claim C9: for a single-entry history the full solve path is
equivalent to the short-circuit of the spec.  The 2 x 2 bordered system
built from any residual has determinant -1 and so is never singular, its
solution is (1, b) with b the squared residual norm, so the first
solution entry is exactly 1 and the extrapolation block reproduces the
sole trial matrix, exactly what the short-circuit coefficient [1.0]
yields. -/
theorem single_history_solve_equals_short_circuit {m : ℕ} (r F : Mat m) :
    (buildB [r]).det = -1 ∧
    pulaySolve [r] = some ![1, frobInner r r] ∧
    diisApply [F] [r] = some (shortCircuitN1 F) ∧
    shortCircuitN1 F = F := by
  have hB : buildB [r] = !![frobInner r r, -1; -1, 0] := by
    funext i j
    fin_cases i <;> fin_cases j <;> simp [buildB]
  have hdet : (buildB [r]).det = -1 := by
    rw [hB, Matrix.det_fin_two]
    simp
  have hsolve : pulaySolve [r] = some ![1, frobInner r r] := by
    unfold pulaySolve
    rw [linSolve_isSome (by rw [hdet]; norm_num)]
    congr 1
    rw [hdet, hB, Matrix.adjugate_fin_two]
    funext i
    fin_cases i <;>
      simp [Matrix.mulVec, Matrix.dotProduct, Fin.sum_univ_two, pulayRhs] <;>
      norm_num
  refine ⟨hdet, hsolve, ?_, one_smul ℚ F⟩
  unfold diisApply
  rw [hsolve]
  simp only [Option.map_some']
  congr 1
  show diisCombo [1, frobInner r r] [F] = shortCircuitN1 F
  unfold diisCombo shortCircuitN1
  simp [List.range_succ]

/-- Concrete 1 x 1 residual matrix with entry 1. -/
def rOne : Mat 1 := !![1]

/-- Concrete 1 x 1 residual matrix with entry 0. -/
def rZero : Mat 1 := !![0]

/-- Concrete 1 x 1 Fock (trial) matrix with entry 3. -/
def fockA : Mat 1 := !![3]

/-- Concrete 1 x 1 Fock (trial) matrix with entry 7. -/
def fockB : Mat 1 := !![7]

theorem buildB_pair_eval :
    (buildB [rOne, rZero] : Matrix (Fin 3) (Fin 3) ℚ) =
      !![1, 0, -1; 0, 0, -1; -1, -1, 0] := by
  funext i j
  fin_cases i <;> fin_cases j <;>
    simp [buildB, frobInner, rOne, rZero, Fin.sum_univ_one]

theorem linSolve_pair_concrete :
    linSolve (!![1, 0, -1; 0, 0, -1; -1, -1, 0] : Matrix (Fin 3) (Fin 3) ℚ)
      ![0, 0, -1] = some ![0, 1, 0] := by
  rw [linSolve_isSome (by rw [Matrix.det_fin_three]; norm_num)]
  congr 1
  rw [Matrix.det_fin_three, Matrix.adjugate_fin_three]
  funext i
  fin_cases i <;>
    norm_num [Matrix.mulVec, Matrix.dotProduct, Fin.sum_univ_three]

theorem pulayRhs_pair_eval :
    pulayRhs [rOne, rZero].length = (![0, 0, -1] : Fin 3 → ℚ) := by
  funext i
  fin_cases i <;> simp [pulayRhs]

theorem pulaySolve_pair_eval : pulaySolve [rOne, rZero] = some ![0, 1, 0] := by
  show linSolve (buildB [rOne, rZero]) (pulayRhs [rOne, rZero].length) =
    some ![0, 1, 0]
  rw [buildB_pair_eval, pulayRhs_pair_eval]
  exact linSolve_pair_concrete

theorem buildB_dup_eval : buildB [rOne, rOne] = !![1, 1, -1; 1, 1, -1; -1, -1, 0] := by
  funext i j
  fin_cases i <;> fin_cases j <;>
    simp [buildB, frobInner, rOne, Fin.sum_univ_one]

theorem buildB_dup_det : (buildB [rOne, rOne]).det = 0 := by
  rw [buildB_dup_eval, Matrix.det_fin_three]
  norm_num

/-- Counterexample to claim C2: appending two iterations with identical
residual vectors makes the bordered matrix singular, and the notebook
extrapolation block then fails (LinAlgError from np.linalg.solve escapes,
modelled by none) instead of returning the latest trial matrix fockB
unmodified, since the solve is wrapped in no exception handler. -/
theorem singular_solve_propagates_cex :
    diisApply [fockA, fockB] [rOne, rOne] = none ∧
    diisApply [fockA, fockB] [rOne, rOne] ≠ some fockB := by
  have h : diisApply [fockA, fockB] [rOne, rOne] = none := by
    unfold diisApply pulaySolve linSolve
    rw [if_pos buildB_dup_det]
    rfl
  exact ⟨h, by rw [h]; simp⟩

/-- Claim C2 as amended: whenever the bordered Pulay matrix built from
the residual history is singular, the extrapolation block fails and the
failure propagates out (the notebook has no fallback to the latest trial
vector and no exception handler around the solve). -/
theorem singular_solve_propagates {m : ℕ} (Fl Rl : List (Mat m))
    (hdet : (buildB Rl).det = 0) : diisApply Fl Rl = none := by
  unfold diisApply pulaySolve linSolve
  rw [if_pos hdet]
  rfl

/-- Witness for the amended claim C2 at the duplicate-residual history. -/
theorem singular_solve_propagates_witness :
    (buildB [rOne, rOne]).det = 0 ∧ diisApply [fockA, fockB] [rOne, rOne] = none :=
  ⟨buildB_dup_det, singular_solve_propagates [fockA, fockB] [rOne, rOne] buildB_dup_det⟩

/-- A rank-1 array of length 2 playing the trial in the shape-mismatch
scenario. -/
def arrTrial : NDArr := ⟨[2], [1, 2]⟩

/-- A rank-1 array of length 3, deliberately of a different shape than
arrTrial, playing the residual. -/
def arrResid : NDArr := ⟨[3], [1, 2, 3]⟩

/-- Counterexample to claim C6: the notebook appends are plain Python
list appends with no shape validation, so appending a residual whose
shape differs from the trial raises nothing and the mismatched pair is
stored anyway. -/
theorem append_no_shape_check_cex :
    arrTrial.shape ≠ arrResid.shape ∧
    appendPair (([], []) : List NDArr × List NDArr) arrTrial arrResid =
      ([arrTrial], [arrResid]) := by
  exact ⟨by decide, rfl⟩

/-- Claim C6 as amended: appending a (trial, residual) pair never fails
and performs no shape validation; even when the residual shape differs
from the trial shape the pair is stored at the end of both histories (no
DimensionMismatch error exists in the notebook). -/
theorem append_stores_unconditionally (h : List NDArr × List NDArr)
    (t r : NDArr) (_hmis : t.shape ≠ r.shape) :
    (appendPair h t r).1.length = h.1.length + 1 ∧
    (appendPair h t r).2.length = h.2.length + 1 ∧
    (appendPair h t r).1.getLast? = some t ∧
    (appendPair h t r).2.getLast? = some r := by
  unfold appendPair
  refine ⟨by simp, by simp, ?_, ?_⟩ <;> simp [List.getLast?_concat]

/-- Witness for the amended claim C6 at the concrete mismatched pair. -/
theorem append_stores_unconditionally_witness :
    arrTrial.shape ≠ arrResid.shape ∧
    ((appendPair (([], []) : List NDArr × List NDArr) arrTrial arrResid).1.length = 0 + 1 ∧
     (appendPair (([], []) : List NDArr × List NDArr) arrTrial arrResid).2.length = 0 + 1 ∧
     (appendPair (([], []) : List NDArr × List NDArr) arrTrial arrResid).1.getLast? = some arrTrial ∧
     (appendPair (([], []) : List NDArr × List NDArr) arrTrial arrResid).2.getLast? = some arrResid) :=
  ⟨by decide, append_stores_unconditionally ([], []) arrTrial arrResid (by decide)⟩

/-- Witness for claim C3 at the concrete two-entry history. -/
theorem coefficients_sum_to_one_witness :
    2 ≤ ([rOne, rZero] : List (Mat 1)).length ∧
    pulaySolve [rOne, rZero] = some ![0, 1, 0] ∧
    ∑ i : Fin ([rOne, rZero] : List (Mat 1)).length,
      (![0, 1, 0] : Fin 3 → ℚ) i.castSucc = 1 :=
  ⟨by decide, pulaySolve_pair_eval,
    coefficients_sum_to_one [rOne, rZero] (by decide) ![0, 1, 0] pulaySolve_pair_eval⟩

/-- Witness for claim C5 at the concrete two-entry history. -/
theorem extrapolation_is_linear_combination_witness :
    ([fockA, fockB] : List (Mat 1)).length = ([rOne, rZero] : List (Mat 1)).length ∧
    pulaySolve [rOne, rZero] = some ![0, 1, 0] ∧
    diisApply [fockA, fockB] [rOne, rZero] =
      some (∑ i : Fin ([rOne, rZero] : List (Mat 1)).length,
        (![0, 1, 0] : Fin 3 → ℚ) i.castSucc •
          ([fockA, fockB] : List (Mat 1)).getD (i : ℕ) 0) :=
  ⟨rfl, pulaySolve_pair_eval,
    extrapolation_is_linear_combination [fockA, fockB] [rOne, rZero] rfl
      ![0, 1, 0] pulaySolve_pair_eval⟩

/-- Witness for claim C1 at the concrete two-entry history. -/
theorem pulay_solver_construction_witness :
    2 ≤ ([rOne, rZero] : List (Mat 1)).length ∧
    ([fockA, fockB] : List (Mat 1)).length = ([rOne, rZero] : List (Mat 1)).length ∧
    ((∀ i j : Fin ([rOne, rZero] : List (Mat 1)).length,
        buildB [rOne, rZero] i.castSucc j.castSucc =
          frobInner (([rOne, rZero] : List (Mat 1)).get i)
            (([rOne, rZero] : List (Mat 1)).get j)) ∧
     (∀ j : Fin ([rOne, rZero] : List (Mat 1)).length,
        buildB [rOne, rZero] (Fin.last ([rOne, rZero] : List (Mat 1)).length)
          j.castSucc = -1) ∧
     (∀ i : Fin ([rOne, rZero] : List (Mat 1)).length,
        buildB [rOne, rZero] i.castSucc
          (Fin.last ([rOne, rZero] : List (Mat 1)).length) = -1) ∧
     buildB [rOne, rZero] (Fin.last ([rOne, rZero] : List (Mat 1)).length)
       (Fin.last ([rOne, rZero] : List (Mat 1)).length) = 0 ∧
     (∀ j : Fin ([rOne, rZero] : List (Mat 1)).length,
        pulayRhs ([rOne, rZero] : List (Mat 1)).length j.castSucc = 0) ∧
     pulayRhs ([rOne, rZero] : List (Mat 1)).length
       (Fin.last ([rOne, rZero] : List (Mat 1)).length) = -1 ∧
     ∀ ctil, pulaySolve [rOne, rZero] = some ctil →
       (buildB [rOne, rZero]).mulVec ctil =
         pulayRhs ([rOne, rZero] : List (Mat 1)).length ∧
       diisApply [fockA, fockB] [rOne, rZero] =
         some (∑ i : Fin ([rOne, rZero] : List (Mat 1)).length,
           ctil i.castSucc • ([fockA, fockB] : List (Mat 1)).getD (i : ℕ) 0)) :=
  ⟨by decide, rfl,
    pulay_solver_construction [fockA, fockB] [rOne, rZero] (by decide) rfl⟩

end DIIS
